import Mathlib

/-!
Shallow embedding of the AlgoSearch-Visualizer core
(`src/data_structures.py` and `src/search_algorithms.py`).

Values stored in containers are modelled as `Int` (the repository uses
integer data throughout).  Wall-clock fields (`SearchStep.timestamp`,
`SearchResult.time_taken`) are outside the model: they are real-time
measurements with no algorithmic content.  Python exceptions are modelled
with `Except String`; Python `None` results are modelled with `Option`.
-/

namespace AlgoSearch

/-- One recorded step of a search (`SearchStep` in `search_algorithms.py`).
`action` is one of "compare", "move", "found", "not_found"; `comparison` is
one of "equal", "less", "greater", "move_left", "move_right". -/
structure SearchStep where
  step_num : Nat
  action : String
  index : Option Nat
  value : Option Int
  comparison : Option String
  found : Bool
deriving DecidableEq, Repr

/-- Aggregate result of one search (`SearchResult` in `search_algorithms.py`),
without the wall-clock `time_taken` field. -/
structure SearchResult where
  found : Bool
  index : Option Nat
  steps : List SearchStep
  comparisons : Nat
deriving DecidableEq, Repr

/-- `SearchableArray`: its `data` list and the access-history log of read
indices (`data_structures.py`). -/
structure SearchableArray where
  data : List Int
  access_history : List Nat
deriving DecidableEq, Repr

/-- `SearchableLinkedList`: the sequence of node values (the `to_list` view)
and the access-history log, which records the *values* read. -/
structure SearchableLinkedList where
  data : List Int
  access_history : List Int
deriving DecidableEq, Repr

/-- Node-owned binary tree underlying `BinarySearchTree`. -/
inductive Tree where
  | nil : Tree
  | node : Tree → Int → Tree → Tree
deriving DecidableEq, Repr

/-- `BinarySearchTree`: root, running size counter, and the access-history
log of visited node values. -/
structure BinarySearchTree where
  root : Tree
  size : Nat
  access_history : List Int
deriving DecidableEq, Repr

/-- The three container kinds the engines dispatch on (Python uses
`isinstance` checks against the three concrete classes). -/
inductive Container where
  | array : SearchableArray → Container
  | linked : SearchableLinkedList → Container
  | bst : BinarySearchTree → Container
deriving DecidableEq, Repr

/-! ## Container access layer -/

/-- `SearchableArray.__getitem__`: in range, append the index to the history
and return the element; out of range, raise `IndexError`. -/
def SearchableArray.getItem (arr : SearchableArray) (index : Int) :
    Except String (Int × SearchableArray) :=
  if h : 0 ≤ index ∧ index < (arr.data.length : Int) then
    have h2 : index.toNat < arr.data.length := by omega
    .ok (arr.data[index.toNat],
         ⟨arr.data, arr.access_history ++ [index.toNat]⟩)
  else
    .error ("数组索引超出范围")

/-- `SearchableArray.__setitem__`: in range, overwrite the element; out of
range, raise `IndexError`. -/
def SearchableArray.setItem (arr : SearchableArray) (index : Int) (value : Int) :
    Except String SearchableArray :=
  if 0 ≤ index ∧ index < (arr.data.length : Int) then
    .ok ⟨arr.data.set index.toNat value, arr.access_history⟩
  else
    .error ("数组索引超出范围")

/-- `SearchableLinkedList.get_node_at`: out of range returns `None` (no
exception); in range it walks to the node, appends the node value to the
history, and returns the node (modelled by its value). -/
def SearchableLinkedList.getNodeAt (ll : SearchableLinkedList) (index : Int) :
    Option Int × SearchableLinkedList :=
  if h : 0 ≤ index ∧ index < (ll.data.length : Int) then
    have h2 : index.toNat < ll.data.length := by omega
    let v := ll.data[index.toNat]
    (some v, ⟨ll.data, ll.access_history ++ [v]⟩)
  else
    (none, ll)

/-- `SearchableLinkedList.get_value_at`: `node.val if node else None`. -/
def SearchableLinkedList.getValueAt (ll : SearchableLinkedList) (index : Int) :
    Option Int × SearchableLinkedList :=
  ll.getNodeAt index

/-! ## Linear search (`LinearSearch` in `search_algorithms.py`) -/

/-- The comparison verdict and found flag computed in each engine's loop body
(`if value == target ... elif value < target ... else ...`). -/
def compareOutcome (value target : Int) : String × Bool :=
  if value = target then ("equal", true)
  else if value < target then ("less", false)
  else ("greater", false)

/-- Loop of `LinearSearch._search_array`: `for i in range(len(arr))`, reading
`arr[i]` (which appends `i` to the history), counting one comparison,
appending a compare step, and returning on a match.  Iterating the array by
increasing index is modelled by structural recursion over the remaining
suffix, with `i` the index of its first element. -/
def lsArrayLoop (target : Int) : List Int → Nat → List SearchStep → Nat →
    List Nat → SearchResult × List Nat
  | value :: rest, i, steps, comps, hist =>
    let hist2 := hist ++ [i]
    let comps2 := comps + 1
    let oc := compareOutcome value target
    let step : SearchStep :=
      ⟨steps.length + 1, "compare", some i, some value, some oc.1, oc.2⟩
    let steps2 := steps ++ [step]
    if oc.2 then
      (⟨true, some i, steps2, comps2⟩, hist2)
    else
      lsArrayLoop target rest (i + 1) steps2 comps2 hist2
  | [], _, steps, comps, hist =>
    (⟨false, none,
      steps ++ [⟨steps.length + 1, "not_found", none, none, none, false⟩],
      comps⟩, hist)

/-- `LinearSearch._search_array`: clears the history, then runs the loop. -/
def LinearSearch.searchArray (arr : SearchableArray) (target : Int) :
    SearchResult × SearchableArray :=
  let r := lsArrayLoop target arr.data 0 [] 0 []
  (r.1, ⟨arr.data, r.2⟩)

/-- Loop of `LinearSearch._search_linked_list`: identical to the array loop
except reads go through `get_value_at`, which appends the *value* to the
history. -/
def lsListLoop (target : Int) : List Int → Nat → List SearchStep → Nat →
    List Int → SearchResult × List Int
  | value :: rest, i, steps, comps, hist =>
    let hist2 := hist ++ [value]
    let comps2 := comps + 1
    let oc := compareOutcome value target
    let step : SearchStep :=
      ⟨steps.length + 1, "compare", some i, some value, some oc.1, oc.2⟩
    let steps2 := steps ++ [step]
    if oc.2 then
      (⟨true, some i, steps2, comps2⟩, hist2)
    else
      lsListLoop target rest (i + 1) steps2 comps2 hist2
  | [], _, steps, comps, hist =>
    (⟨false, none,
      steps ++ [⟨steps.length + 1, "not_found", none, none, none, false⟩],
      comps⟩, hist)

/-- `LinearSearch._search_linked_list`: clears the history, then runs the
loop. -/
def LinearSearch.searchList (ll : SearchableLinkedList) (target : Int) :
    SearchResult × SearchableLinkedList :=
  let r := lsListLoop target ll.data 0 [] 0 []
  (r.1, ⟨ll.data, r.2⟩)

/-- `LinearSearch.search`: dispatch on the container kind; any other kind
raises `ValueError`. -/
def LinearSearch.search (c : Container) (target : Int) :
    Except String (SearchResult × Container) :=
  match c with
  | .array arr =>
    let r := LinearSearch.searchArray arr target
    .ok (r.1, .array r.2)
  | .linked ll =>
    let r := LinearSearch.searchList ll target
    .ok (r.1, .linked r.2)
  | .bst _ => .error ("线性查找不支持此数据结构类型")

/-! ## Binary search (`BinarySearch` in `search_algorithms.py`) -/

/-- The `while left <= right` loop of `BinarySearch.search`:
`mid = (left + right) // 2`, read `arr[mid]` (recording the access and
possibly raising `IndexError`), count one comparison, emit a compare step,
return on a match, otherwise emit a move step and shrink the interval. -/
def bsLoop (target : Int) (arr : SearchableArray) (left right : Int)
    (steps : List SearchStep) (comps : Nat) :
    Except String (SearchResult × SearchableArray) :=
  if hlr : left ≤ right then
    let mid := (left + right).fdiv 2
    match arr.getItem mid with
    | .error e => .error e
    | .ok (value, arr2) =>
      let comps2 := comps + 1
      let oc := compareOutcome value target
      let step : SearchStep :=
        ⟨steps.length + 1, "compare", some mid.toNat, some value, some oc.1, oc.2⟩
      let steps2 := steps ++ [step]
      if oc.2 then
        .ok (⟨true, some mid.toNat, steps2, comps2⟩, arr2)
      else if value < target then
        bsLoop target arr2 (mid + 1) right
          (steps2 ++ [⟨steps2.length + 1, "move", none, none, some ("move_right"), false⟩])
          comps2
      else
        bsLoop target arr2 left (mid - 1)
          (steps2 ++ [⟨steps2.length + 1, "move", none, none, some ("move_left"), false⟩])
          comps2
  else
    .ok (⟨false, none,
      steps ++ [⟨steps.length + 1, "not_found", none, none, none, false⟩],
      comps⟩, arr)
termination_by (right + 1 - left).toNat
decreasing_by
  · have hb : left ≤ (left + right).fdiv 2 ∧ (left + right).fdiv 2 ≤ right := by
      rw [Int.fdiv_eq_ediv _ (by omega)]
      omega
    omega
  · have hb : left ≤ (left + right).fdiv 2 ∧ (left + right).fdiv 2 ≤ right := by
      rw [Int.fdiv_eq_ediv _ (by omega)]
      omega
    omega

/-- `BinarySearch.search` on an array: clears the history, then runs the loop
starting from `left=0, right=size-1`. -/
def BinarySearch.searchArray (arr : SearchableArray) (target : Int) :
    Except String (SearchResult × SearchableArray) :=
  bsLoop target ⟨arr.data, []⟩ 0 ((arr.data.length : Int) - 1) [] 0

/-- `BinarySearch.search`: the type guard raises `ValueError` for any
container that is not a `SearchableArray`, before anything else happens. -/
def BinarySearch.search (c : Container) (target : Int) :
    Except String (SearchResult × Container) :=
  match c with
  | .array arr =>
    match BinarySearch.searchArray arr target with
    | .ok r => .ok (r.1, .array r.2)
    | .error e => .error e
  | .linked _ => .error ("二分查找只支持数组类型")
  | .bst _ => .error ("二分查找只支持数组类型")

/-! ## Binary search tree (`data_structures.py`) -/

/-- `BinarySearchTree._insert_recursive`: strictly smaller values go left,
strictly larger go right, duplicates are discarded.  The boolean reports
whether a new node was created (Python increments `size` exactly then). -/
def Tree.insertAux : Tree → Int → Tree × Bool
  | .nil, value => (.node .nil value .nil, true)
  | .node l x r, value =>
    if value < x then
      let p := l.insertAux value
      (.node p.1 x r, p.2)
    else if value > x then
      let p := r.insertAux value
      (.node l x p.1, p.2)
    else
      (.node l x r, false)

/-- `BinarySearchTree.insert`: empty tree gets a fresh root with `size = 1`;
otherwise recursive insert, bumping `size` only when a node was created. -/
def BinarySearchTree.insert (b : BinarySearchTree) (value : Int) :
    BinarySearchTree :=
  match b.root with
  | .nil => ⟨.node .nil value .nil, 1, b.access_history⟩
  | .node l x r =>
    let p := (Tree.node l x r).insertAux value
    ⟨p.1, if p.2 then b.size + 1 else b.size, b.access_history⟩

/-- `BinarySearchTree.__init__(data)`: start empty and insert each value in
order. -/
def BinarySearchTree.fromList (data : List Int) : BinarySearchTree :=
  data.foldl BinarySearchTree.insert ⟨.nil, 0, []⟩

/-- `BinarySearchTree._search_recursive`: append the node value to the
history, stop on equality, descend left when the target is smaller, right
when it is larger.  Returns the found flag and the recorded history. -/
def Tree.searchRec : Tree → Int → Bool × List Int
  | .nil, _ => (false, [])
  | .node l x r, target =>
    if target = x then (true, [x])
    else if target < x then
      let p := l.searchRec target
      (p.1, x :: p.2)
    else
      let p := r.searchRec target
      (p.1, x :: p.2)

/-- `BinarySearchTree.search_with_history`: clear the history, search, and
return `(found, history)` together with the updated container. -/
def BinarySearchTree.searchWithHistory (b : BinarySearchTree) (target : Int) :
    (Bool × List Int) × BinarySearchTree :=
  let p := b.root.searchRec target
  (p, ⟨b.root, b.size, p.2⟩)

/-- `BinarySearchTree.inorder_traversal`. -/
def Tree.inorder : Tree → List Int
  | .nil => []
  | .node l x r => l.inorder ++ x :: r.inorder

/-! ## BST search engine (`BSTSearch` in `search_algorithms.py`) -/

/-- Verdict mapping used when `BSTSearch.search` replays the access history:
`equal` on a match, `greater` when the node value exceeds the target, `less`
otherwise. -/
def bstOutcome (value target : Int) : String × Bool :=
  if value = target then ("equal", true)
  else if value > target then ("greater", false)
  else ("less", false)

/-- The `for i, value in enumerate(access_history)` loop of
`BSTSearch.search`, which breaks right after emitting the matching step. -/
def bstSteps (target : Int) : List Int → Nat → List SearchStep
  | [], _ => []
  | value :: rest, i =>
    let oc := bstOutcome value target
    let step : SearchStep := ⟨i + 1, "compare", none, some value, some oc.1, oc.2⟩
    if oc.2 then [step] else step :: bstSteps target rest (i + 1)

/-- `BSTSearch.search` on a `BinarySearchTree`: run `search_with_history`,
rebuild compare steps from the history, append `not_found` when the search
failed; `comparisons` is the history length and `index` is always absent. -/
def BSTSearch.searchBST (b : BinarySearchTree) (target : Int) :
    SearchResult × BinarySearchTree :=
  let p := b.searchWithHistory target
  let found := p.1.1
  let hist := p.1.2
  let steps := bstSteps target hist 0
  let steps2 :=
    if found then steps
    else steps ++ [⟨steps.length + 1, "not_found", none, none, none, false⟩]
  (⟨found, none, steps2, hist.length⟩, p.2)

/-- `BSTSearch.search`: the type guard raises `ValueError` for any container
that is not a `BinarySearchTree`. -/
def BSTSearch.search (c : Container) (target : Int) :
    Except String (SearchResult × Container) :=
  match c with
  | .bst b =>
    let r := BSTSearch.searchBST b target
    .ok (r.1, .bst r.2)
  | .array _ => .error ("BST查找只支持二叉搜索树类型")
  | .linked _ => .error ("BST查找只支持二叉搜索树类型")

/-! ## Dispatcher (`SearchAlgorithmFactory` in `search_algorithms.py`) -/

/-- `SearchAlgorithmFactory.get_available_algorithms()`. -/
def SearchAlgorithmFactory.available : List String :=
  ["linear", "binary", "bst"]

/-- `SearchAlgorithmFactory.search`: look the identifier up in the registry
(raising `ValueError` for an unknown one) and run the engine. -/
def SearchAlgorithmFactory.search (name : String) (c : Container)
    (target : Int) : Except String (SearchResult × Container) :=
  if name = "linear" then LinearSearch.search c target
  else if name = "binary" then BinarySearch.search c target
  else if name = "bst" then BSTSearch.search c target
  else .error ("不支持的算法: " ++ name)

/-! ## Specification-side definitions used in claim statements -/

/-- Worst-case number of loop iterations of binary search on an interval of
`n` candidates: `0` for an empty interval, `floor(log2 n) + 1` otherwise. -/
def binBound (n : Nat) : Nat :=
  if n = 0 then 0 else Nat.log2 n + 1

/-- Modelled from the claim C6 wording: the per-iteration shape of a binary
search trace starting from bounds `(low, high)` with `k` steps already
emitted.  Each iteration computes `mid = floor((low + high) / 2)`, emits
exactly one compare step at `mid`, and — unless the probed value matched —
exactly one move step: `move_right` with `low = mid + 1` when the value is
less than the target, `move_left` with `high = mid - 1` when it is greater.
The terminal matching iteration emits only its compare step; an exhausted
interval emits the final `not_found` step. -/
inductive BinSpec (data : List Int) (target : Int) :
    Int → Int → Nat → List SearchStep → Prop where
  | exhausted (low high : Int) (k : Nat) :
      ¬ low ≤ high →
      BinSpec data target low high k
        [⟨k + 1, "not_found", none, none, none, false⟩]
  | matched (low high mid : Int) (k : Nat) (value : Int) :
      low ≤ high → mid = (low + high).fdiv 2 →
      data[mid.toNat]? = some value → value = target →
      BinSpec data target low high k
        [⟨k + 1, "compare", some mid.toNat, some value, some ("equal"), true⟩]
  | moveRight (low high mid : Int) (k : Nat) (value : Int)
      (rest : List SearchStep) :
      low ≤ high → mid = (low + high).fdiv 2 →
      data[mid.toNat]? = some value → value < target →
      BinSpec data target (mid + 1) high (k + 2) rest →
      BinSpec data target low high k
        (⟨k + 1, "compare", some mid.toNat, some value, some ("less"), false⟩ ::
         ⟨k + 2, "move", none, none, some ("move_right"), false⟩ :: rest)
  | moveLeft (low high mid : Int) (k : Nat) (value : Int)
      (rest : List SearchStep) :
      low ≤ high → mid = (low + high).fdiv 2 →
      data[mid.toNat]? = some value → target < value →
      BinSpec data target low (mid - 1) (k + 2) rest →
      BinSpec data target low high k
        (⟨k + 1, "compare", some mid.toNat, some value, some ("greater"), false⟩ ::
         ⟨k + 2, "move", none, none, some ("move_left"), false⟩ :: rest)

/-- All values of a tree satisfy `p`. -/
def Tree.ForallV (p : Int → Prop) : Tree → Prop
  | .nil => True
  | .node l x r => p x ∧ Tree.ForallV p l ∧ Tree.ForallV p r

/-- The BST invariant of the spec: at every node, all values of the left
subtree are strictly below the node value and all values of the right
subtree strictly above it. -/
def Tree.IsBST : Tree → Prop
  | .nil => True
  | .node l x r =>
      Tree.ForallV (fun v => v < x) l ∧ Tree.ForallV (fun v => x < v) r ∧
      l.IsBST ∧ r.IsBST

/-- Projection used to read the access log off a step list: the index probed
by a compare step. -/
def compareIndex (s : SearchStep) : Option Nat :=
  if s.action = "compare" then s.index else none

/-- Projection used to read the access log off a step list: the value probed
by a compare step. -/
def compareValue (s : SearchStep) : Option Int :=
  if s.action = "compare" then s.value else none

/-! ## Binary search loop lemmas -/

/-- In-range reads succeed and append the index to the history. -/
theorem getItem_ok (arr : SearchableArray) (index : Int) (h0 : 0 ≤ index)
    (h1 : index < (arr.data.length : Int))
    (h2 : index.toNat < arr.data.length) :
    arr.getItem index =
      .ok (arr.data[index.toNat],
           ⟨arr.data, arr.access_history ++ [index.toNat]⟩) := by
  simp only [SearchableArray.getItem]
  rw [dif_pos ⟨h0, h1⟩]

/-- One halving step of the iteration bound: if the next interval holds at
most half the candidates, one more iteration fits the budget. -/
theorem binBound_step {n0 n1 : Nat} (h : n1 ≤ n0 / 2) (h1 : 1 ≤ n0) :
    binBound n1 + 1 ≤ binBound n0 := by
  rcases Nat.eq_zero_or_pos n1 with h0 | hpos
  · subst h0
    have hne : n0 ≠ 0 := by omega
    simp [binBound, hne]
  · have h2 : 2 ≤ n0 := by omega
    have hne0 : n0 ≠ 0 := by omega
    have hne1 : n1 ≠ 0 := by omega
    simp only [binBound, if_neg hne0, if_neg hne1]
    have hlog : Nat.log2 n1 ≤ Nat.log2 (n0 / 2) := by
      simp only [Nat.log2_eq_log_two]
      exact Nat.log_mono_right h
    have hstep : Nat.log2 (n0 / 2) + 1 = Nat.log2 n0 := by
      conv_rhs => rw [Nat.log2]
      simp [h2]
    omega

/-- Master lemma on the binary search loop, by induction on an iteration
budget dominating the interval size.  Under the loop invariant
`0 ≤ left ∧ right < size`, the loop returns successfully; the data is
untouched; steps and history only grow, the history by exactly the compare
indices of the new steps; the new steps follow the C6 iteration discipline;
and the comparison count grows by at most `binBound` of the interval size. -/
theorem bsLoop_ok (target : Int) :
    ∀ (n : Nat) (left right : Int) (arr : SearchableArray)
      (steps : List SearchStep) (comps : Nat),
      (right + 1 - left).toNat ≤ n →
      0 ≤ left → right < (arr.data.length : Int) →
      ∃ res arr2 tail,
        bsLoop target arr left right steps comps = .ok (res, arr2) ∧
        arr2.data = arr.data ∧
        res.steps = steps ++ tail ∧
        arr2.access_history =
          arr.access_history ++ tail.filterMap compareIndex ∧
        BinSpec arr.data target left right steps.length tail ∧
        res.comparisons ≤ comps + binBound ((right + 1 - left).toNat) := by
  intro n
  induction n with
  | zero =>
    intro left right arr steps comps hn h0 h1
    have hlr : ¬ left ≤ right := by omega
    rw [bsLoop, dif_neg hlr]
    refine ⟨_, _, [⟨steps.length + 1, "not_found", none, none, none, false⟩],
      rfl, rfl, rfl, ?_, BinSpec.exhausted _ _ _ hlr, ?_⟩
    · simp [compareIndex]
    · have ht : (right + 1 - left).toNat = 0 := by omega
      rw [ht]
      simp [binBound]
  | succ m ih =>
    intro left right arr steps comps hn h0 h1
    by_cases hlr : left ≤ right
    · rw [bsLoop, dif_pos hlr]
      have hmb : left ≤ (left + right).fdiv 2 ∧ (left + right).fdiv 2 ≤ right := by
        rw [Int.fdiv_eq_ediv _ (by omega)]
        omega
      have hmid2 : (left + right).fdiv 2 = (left + right) / 2 :=
        Int.fdiv_eq_ediv _ (by omega)
      have hm0 : 0 ≤ (left + right).fdiv 2 := le_trans h0 hmb.1
      have hmlt : (left + right).fdiv 2 < (arr.data.length : Int) :=
        lt_of_le_of_lt hmb.2 h1
      have hmn : ((left + right).fdiv 2).toNat < arr.data.length := by omega
      have hn1 : 1 ≤ (right + 1 - left).toNat := by omega
      by_cases hveq : arr.data[((left + right).fdiv 2).toNat] = target
      · have hoc : compareOutcome (arr.data[((left + right).fdiv 2).toNat])
            target = ("equal", true) := by
          simp [compareOutcome, hveq]
        simp only [getItem_ok arr _ hm0 hmlt hmn, hoc, eq_self_iff_true,
          if_true]
        refine ⟨_, _, [⟨steps.length + 1, "compare",
          some ((left + right).fdiv 2).toNat,
          some (arr.data[((left + right).fdiv 2).toNat]), some ("equal"),
          true⟩], rfl, rfl, rfl, ?_, ?_, ?_⟩
        · simp [compareIndex]
        · exact BinSpec.matched _ _ _ _ _ hlr rfl
            (List.getElem?_eq_getElem hmn) hveq
        · have hb1 : 1 ≤ binBound ((right + 1 - left).toNat) := by
            have : (right + 1 - left).toNat ≠ 0 := by omega
            simp [binBound, this]
          show comps + 1 ≤ comps + binBound ((right + 1 - left).toNat)
          omega
      · by_cases hvlt : arr.data[((left + right).fdiv 2).toNat] < target
        · have hoc : compareOutcome (arr.data[((left + right).fdiv 2).toNat])
              target = ("less", false) := by
            simp [compareOutcome, hveq, hvlt]
          simp only [getItem_ok arr _ hm0 hmlt hmn, hoc, Bool.false_eq_true,
            if_false, if_pos hvlt, List.length_append, List.length_singleton]
          obtain ⟨res, arr3, tail, heq, hdata, hsteps, hhist, hspec, hcomp⟩ :=
            ih ((left + right).fdiv 2 + 1) right
              ⟨arr.data, arr.access_history ++ [((left + right).fdiv 2).toNat]⟩
              (steps ++ [⟨steps.length + 1, "compare",
                some ((left + right).fdiv 2).toNat,
                some (arr.data[((left + right).fdiv 2).toNat]), some ("less"),
                false⟩] ++
               [⟨steps.length + 1 + 1, "move", none, none, some ("move_right"),
                false⟩])
              (comps + 1) (by omega) (by omega) h1
          refine ⟨res, arr3,
            (⟨steps.length + 1, "compare", some ((left + right).fdiv 2).toNat,
              some (arr.data[((left + right).fdiv 2).toNat]), some ("less"),
              false⟩ : SearchStep) ::
            (⟨steps.length + 1 + 1, "move", none, none, some ("move_right"),
              false⟩ : SearchStep) :: tail, ?_, hdata, ?_, ?_, ?_, ?_⟩
          · rw [← heq]
          · rw [hsteps]
            simp [List.append_assoc]
          · rw [hhist]
            simp [compareIndex, List.append_assoc]
          · refine BinSpec.moveRight _ _ _ _ _ _ hlr rfl
              (List.getElem?_eq_getElem hmn) hvlt ?_
            simp only [List.length_append, List.length_singleton] at hspec
            exact hspec
          · have hhalf : (right + 1 - ((left + right).fdiv 2 + 1)).toNat ≤
                (right + 1 - left).toNat / 2 := by
              omega
            have := binBound_step hhalf hn1
            omega
        · have hvgt : target < arr.data[((left + right).fdiv 2).toNat] := by
            omega
          have hoc : compareOutcome (arr.data[((left + right).fdiv 2).toNat])
              target = ("greater", false) := by
            simp only [compareOutcome, if_neg hveq, if_neg hvlt]
          simp only [getItem_ok arr _ hm0 hmlt hmn, hoc, Bool.false_eq_true,
            if_false, if_neg hvlt, List.length_append, List.length_singleton]
          obtain ⟨res, arr3, tail, heq, hdata, hsteps, hhist, hspec, hcomp⟩ :=
            ih left ((left + right).fdiv 2 - 1)
              ⟨arr.data, arr.access_history ++ [((left + right).fdiv 2).toNat]⟩
              (steps ++ [⟨steps.length + 1, "compare",
                some ((left + right).fdiv 2).toNat,
                some (arr.data[((left + right).fdiv 2).toNat]),
                some ("greater"), false⟩] ++
               [⟨steps.length + 1 + 1, "move", none, none, some ("move_left"),
                false⟩])
              (comps + 1) (by omega) h0
              (show (left + right).fdiv 2 - 1 < (arr.data.length : Int) by
                omega)
          refine ⟨res, arr3,
            (⟨steps.length + 1, "compare", some ((left + right).fdiv 2).toNat,
              some (arr.data[((left + right).fdiv 2).toNat]), some ("greater"),
              false⟩ : SearchStep) ::
            (⟨steps.length + 1 + 1, "move", none, none, some ("move_left"),
              false⟩ : SearchStep) :: tail, ?_, hdata, ?_, ?_, ?_, ?_⟩
          · rw [← heq]
          · rw [hsteps]
            simp [List.append_assoc]
          · rw [hhist]
            simp [compareIndex, List.append_assoc]
          · refine BinSpec.moveLeft _ _ _ _ _ _ hlr rfl
              (List.getElem?_eq_getElem hmn) hvgt ?_
            simp only [List.length_append, List.length_singleton] at hspec
            exact hspec
          · have hhalf : (((left + right).fdiv 2 - 1) + 1 - left).toNat ≤
                (right + 1 - left).toNat / 2 := by
              omega
            have := binBound_step hhalf hn1
            omega
    · rw [bsLoop, dif_neg hlr]
      refine ⟨_, _, [⟨steps.length + 1, "not_found", none, none, none, false⟩],
        rfl, rfl, rfl, ?_, BinSpec.exhausted _ _ _ hlr, ?_⟩
      · simp [compareIndex]
      · have ht : (right + 1 - left).toNat = 0 := by omega
        rw [ht]
        simp [binBound]

/-- In a `≤`-sorted list, values are monotone in the index. -/
theorem sorted_getElem_le (l : List Int) (hs : List.Sorted (· ≤ ·) l)
    (a b : Nat) (ha : a < l.length) (hb : b < l.length) (hab : a ≤ b) :
    l[a] ≤ l[b] := by
  rcases eq_or_lt_of_le hab with rfl | hlt
  · exact le_refl _
  · have := hs.rel_get_of_lt (a := ⟨a, ha⟩) (b := ⟨b, hb⟩)
      (Fin.mk_lt_mk.mpr hlt)
    simpa [List.get_eq_getElem] using this

/-- On a sorted array, if the window `[left, right]` contains the target, the
loop finds it and reports a position actually holding the target. -/
theorem bsLoop_found (target : Int) :
    ∀ (n : Nat) (left right : Int) (arr : SearchableArray)
      (steps : List SearchStep) (comps : Nat),
      (right + 1 - left).toNat ≤ n →
      0 ≤ left → right < (arr.data.length : Int) →
      List.Sorted (· ≤ ·) arr.data →
      (∃ j : Nat, left ≤ (j : Int) ∧ (j : Int) ≤ right ∧
        arr.data[j]? = some target) →
      ∃ res arr2,
        bsLoop target arr left right steps comps = .ok (res, arr2) ∧
        res.found = true ∧
        ∃ k : Nat, res.index = some k ∧ arr.data[k]? = some target := by
  intro n
  induction n with
  | zero =>
    intro left right arr steps comps hn h0 h1 _ hex
    obtain ⟨j, hj1, hj2, _⟩ := hex
    omega
  | succ m ih =>
    intro left right arr steps comps hn h0 h1 hsort hex
    obtain ⟨j, hj1, hj2, hj3⟩ := hex
    obtain ⟨hjlen, hjval⟩ := List.getElem?_eq_some.1 hj3
    have hlr : left ≤ right := le_trans hj1 hj2
    rw [bsLoop, dif_pos hlr]
    have hmb : left ≤ (left + right).fdiv 2 ∧ (left + right).fdiv 2 ≤ right := by
      rw [Int.fdiv_eq_ediv _ (by omega)]
      omega
    have hmid2 : (left + right).fdiv 2 = (left + right) / 2 :=
      Int.fdiv_eq_ediv _ (by omega)
    have hm0 : 0 ≤ (left + right).fdiv 2 := le_trans h0 hmb.1
    have hmlt : (left + right).fdiv 2 < (arr.data.length : Int) :=
      lt_of_le_of_lt hmb.2 h1
    have hmn : ((left + right).fdiv 2).toNat < arr.data.length := by omega
    by_cases hveq : arr.data[((left + right).fdiv 2).toNat] = target
    · have hoc : compareOutcome (arr.data[((left + right).fdiv 2).toNat])
          target = ("equal", true) := by
        simp [compareOutcome, hveq]
      simp only [getItem_ok arr _ hm0 hmlt hmn, hoc, eq_self_iff_true, if_true]
      refine ⟨_, _, rfl, rfl, ((left + right).fdiv 2).toNat, rfl, ?_⟩
      rw [List.getElem?_eq_getElem hmn, hveq]
    · by_cases hvlt : arr.data[((left + right).fdiv 2).toNat] < target
      · have hoc : compareOutcome (arr.data[((left + right).fdiv 2).toNat])
            target = ("less", false) := by
          simp [compareOutcome, hveq, hvlt]
        simp only [getItem_ok arr _ hm0 hmlt hmn, hoc, Bool.false_eq_true,
          if_false, if_pos hvlt, List.length_append, List.length_singleton]
        have hjgt : (left + right).fdiv 2 + 1 ≤ (j : Int) := by
          by_contra hcon
          have hjm : j ≤ ((left + right).fdiv 2).toNat := by omega
          have := sorted_getElem_le arr.data hsort j
            ((left + right).fdiv 2).toNat hjlen hmn hjm
          omega
        exact ih ((left + right).fdiv 2 + 1) right
          ⟨arr.data, arr.access_history ++ [((left + right).fdiv 2).toNat]⟩
          _ (comps + 1) (by omega) (by omega) h1 hsort
          ⟨j, hjgt, hj2, hj3⟩
      · have hvgt : target < arr.data[((left + right).fdiv 2).toNat] := by
          omega
        have hoc : compareOutcome (arr.data[((left + right).fdiv 2).toNat])
            target = ("greater", false) := by
          simp only [compareOutcome, if_neg hveq, if_neg hvlt]
        simp only [getItem_ok arr _ hm0 hmlt hmn, hoc, Bool.false_eq_true,
          if_false, if_neg hvlt, List.length_append, List.length_singleton]
        have hjlt : (j : Int) ≤ (left + right).fdiv 2 - 1 := by
          by_contra hcon
          have hjm : ((left + right).fdiv 2).toNat ≤ j := by omega
          have := sorted_getElem_le arr.data hsort
            ((left + right).fdiv 2).toNat j hmn hjlen hjm
          omega
        exact ih left ((left + right).fdiv 2 - 1)
          ⟨arr.data, arr.access_history ++ [((left + right).fdiv 2).toNat]⟩
          _ (comps + 1) (by omega) h0
          (show (left + right).fdiv 2 - 1 < (arr.data.length : Int) by omega)
          hsort ⟨j, hj1, hjlt, hj3⟩

/-! ## Claim C1 -/

/-- Claim C1: on a non-empty ascending-sorted array containing the target,
binary search succeeds, the reported index holds the target, and at most
`ceil(log2 size) + 1` comparisons are made. -/
theorem claim_C1_binary_search_correct (arr : SearchableArray) (target : Int)
    (hne : arr.data ≠ []) (hs : List.Sorted (· ≤ ·) arr.data)
    (hmem : target ∈ arr.data) :
    ∃ res arr2, BinarySearch.searchArray arr target = .ok (res, arr2) ∧
      res.found = true ∧
      (∃ k : Nat, res.index = some k ∧ arr.data[k]? = some target) ∧
      res.comparisons ≤ Nat.clog 2 arr.data.length + 1 := by
  have hlen0 : 0 < arr.data.length := List.length_pos.2 hne
  obtain ⟨j, hjlen, hjval⟩ := List.getElem_of_mem hmem
  obtain ⟨res1, a1, tail, heq1, _, _, _, _, hcomp⟩ :=
    bsLoop_ok target arr.data.length 0 ((arr.data.length : Int) - 1)
      ⟨arr.data, []⟩ [] 0 (by omega) (by omega)
      (show (arr.data.length : Int) - 1 < (arr.data.length : Int) by omega)
  obtain ⟨res2, a2, heq2, hfound, hidx⟩ :=
    bsLoop_found target arr.data.length 0 ((arr.data.length : Int) - 1)
      ⟨arr.data, []⟩ [] 0 (by omega) (by omega)
      (show (arr.data.length : Int) - 1 < (arr.data.length : Int) by omega)
      hs ⟨j, by omega, by omega, by rw [List.getElem?_eq_getElem hjlen, hjval]⟩
  rw [heq1] at heq2
  obtain ⟨hres, -⟩ : res1 = res2 ∧ a1 = a2 := by
    have hp : (res1, a1) = (res2, a2) := by
      injection heq2
    exact ⟨congrArg Prod.fst hp, congrArg Prod.snd hp⟩
  subst hres
  refine ⟨res1, a1, heq1, hfound, hidx, ?_⟩
  have htonat : (((arr.data.length : Int) - 1) + 1 - 0).toNat =
      arr.data.length := by omega
  rw [htonat] at hcomp
  have hbb : binBound arr.data.length ≤ Nat.clog 2 arr.data.length + 1 := by
    have hne0 : arr.data.length ≠ 0 := by omega
    simp only [binBound, if_neg hne0, Nat.log2_eq_log_two]
    have := Nat.log_le_clog 2 arr.data.length
    omega
  omega

/-- Witness for C1: the spec's example array, searching for `9`. -/
theorem claim_C1_witness :
    ((⟨[1, 3, 5, 7, 9, 11, 13, 15, 17, 19], []⟩ : SearchableArray).data ≠ [] ∧
     List.Sorted (· ≤ ·)
       (⟨[1, 3, 5, 7, 9, 11, 13, 15, 17, 19], []⟩ : SearchableArray).data ∧
     (9 : Int) ∈
       (⟨[1, 3, 5, 7, 9, 11, 13, 15, 17, 19], []⟩ : SearchableArray).data) ∧
    (∃ res arr2,
      BinarySearch.searchArray ⟨[1, 3, 5, 7, 9, 11, 13, 15, 17, 19], []⟩ 9 =
        .ok (res, arr2) ∧
      res.found = true ∧
      (∃ k : Nat, res.index = some k ∧
        (⟨[1, 3, 5, 7, 9, 11, 13, 15, 17, 19], []⟩ :
          SearchableArray).data[k]? = some 9) ∧
      res.comparisons ≤
        Nat.clog 2
          (⟨[1, 3, 5, 7, 9, 11, 13, 15, 17, 19], []⟩ :
            SearchableArray).data.length + 1) :=
  ⟨⟨by decide, by decide, by decide⟩,
   claim_C1_binary_search_correct ⟨[1, 3, 5, 7, 9, 11, 13, 15, 17, 19], []⟩ 9
     (by decide) (by decide) (by decide)⟩

/-! ## Claim C6 -/

/-- Claim C6: every `BinarySearch.search` run succeeds and its step list
follows the per-iteration discipline of `BinSpec`: `mid = floor((low+high)/2)`,
exactly one compare step per iteration, exactly one move step unless the
iteration matched (`move_right` with `low = mid+1` on less, `move_left` with
`high = mid-1` on greater), and no move step on the terminal matching
iteration. -/
theorem claim_C6_binary_iteration (arr : SearchableArray) (target : Int) :
    ∃ res arr2, BinarySearch.searchArray arr target = .ok (res, arr2) ∧
      BinSpec arr.data target 0 ((arr.data.length : Int) - 1) 0 res.steps := by
  obtain ⟨res, a2, tail, heq, _, hsteps, _, hspec, _⟩ :=
    bsLoop_ok target arr.data.length 0 ((arr.data.length : Int) - 1)
      ⟨arr.data, []⟩ [] 0 (by omega) (by omega)
      (show (arr.data.length : Int) - 1 < (arr.data.length : Int) by omega)
  refine ⟨res, a2, heq, ?_⟩
  have hst : res.steps = tail := by simpa using hsteps
  rw [hst]
  exact hspec

/-! ## Claim C3 -/

/-- Claim C3 as stated is false: on an empty array the linear search still
appends a terminal `not_found` step, so the step sequence is not empty. -/
theorem claim_C3_counterexample :
    ¬ ((LinearSearch.searchArray ⟨[], []⟩ 5).1.steps = []) := by
  decide

/-- Claim C3, amended: for an empty container (array or linked list) and any
target, linear search returns `found = false`, `comparisons = 0`, and the
step sequence consists of exactly one `not_found` step. -/
theorem claim_C3_empty_container (h : List Nat) (h2 : List Int) (t : Int) :
    (LinearSearch.searchArray ⟨[], h⟩ t).1 =
      ⟨false, none, [⟨1, "not_found", none, none, none, false⟩], 0⟩ ∧
    (LinearSearch.searchList ⟨[], h2⟩ t).1 =
      ⟨false, none, [⟨1, "not_found", none, none, none, false⟩], 0⟩ := by
  exact ⟨rfl, rfl⟩

/-! ## Claim C2 -/

/-- When no element of the remaining suffix matches, the array loop scans it
to the end: one compare step per position, a final `not_found` step, one
comparison and one history entry per position. -/
theorem lsArrayLoop_absent (target : Int) (l : List Int) :
    ∀ (i : Nat) (steps : List SearchStep) (comps : Nat) (hist : List Nat),
      steps.length = i → (∀ v ∈ l, v ≠ target) →
      lsArrayLoop target l i steps comps hist =
        (⟨false, none,
          steps ++
            ((l.enumFrom i).map fun p =>
              ⟨p.1 + 1, "compare", some p.1, some p.2,
               some (if p.2 < target then "less" else "greater"), false⟩) ++
            [⟨i + l.length + 1, "not_found", none, none, none, false⟩],
          comps + l.length⟩,
         hist ++ List.range' i l.length) := by
  induction l with
  | nil =>
    intro i steps comps hist hk _
    simp [lsArrayLoop, hk]
  | cons v rest ih =>
    intro i steps comps hist hk habs
    have hv : v ≠ target := habs v (by simp)
    have hoc : compareOutcome v target =
        ((if v < target then "less" else "greater"), false) := by
      simp only [compareOutcome, if_neg hv]
      split <;> rfl
    rw [lsArrayLoop]
    simp only [hoc, hk]
    rw [ih (i + 1) _ (comps + 1) _ (by simp [hk]) (fun w hw => habs w (by simp [hw]))]
    simp [List.range'_succ, List.append_assoc]
    omega

/-- The linked-list analogue of `lsArrayLoop_absent`; the history records the
scanned values, i.e. the whole list. -/
theorem lsListLoop_absent (target : Int) (l : List Int) :
    ∀ (i : Nat) (steps : List SearchStep) (comps : Nat) (hist : List Int),
      steps.length = i → (∀ v ∈ l, v ≠ target) →
      lsListLoop target l i steps comps hist =
        (⟨false, none,
          steps ++
            ((l.enumFrom i).map fun p =>
              ⟨p.1 + 1, "compare", some p.1, some p.2,
               some (if p.2 < target then "less" else "greater"), false⟩) ++
            [⟨i + l.length + 1, "not_found", none, none, none, false⟩],
          comps + l.length⟩,
         hist ++ l) := by
  induction l with
  | nil =>
    intro i steps comps hist hk _
    simp [lsListLoop, hk]
  | cons v rest ih =>
    intro i steps comps hist hk habs
    have hv : v ≠ target := habs v (by simp)
    have hoc : compareOutcome v target =
        ((if v < target then "less" else "greater"), false) := by
      simp only [compareOutcome, if_neg hv]
      split <;> rfl
    rw [lsListLoop]
    simp only [hoc, hk]
    rw [ih (i + 1) _ (comps + 1) _ (by simp [hk]) (fun w hw => habs w (by simp [hw]))]
    simp [List.append_assoc]
    omega

/-- Claim C2: for a target absent from an array or a linked list, linear
search returns `found = false` with no position, `comparisons = size`, and a
trace of one compare step per position followed by a final `not_found`
step. -/
theorem claim_C2_linear_absent (arr : SearchableArray)
    (ll : SearchableLinkedList) (target : Int)
    (ha : target ∉ arr.data) (hl : target ∉ ll.data) :
    (LinearSearch.searchArray arr target).1 =
      ⟨false, none,
       (arr.data.enum.map fun p =>
         ⟨p.1 + 1, "compare", some p.1, some p.2,
          some (if p.2 < target then "less" else "greater"), false⟩) ++
       [⟨arr.data.length + 1, "not_found", none, none, none, false⟩],
       arr.data.length⟩ ∧
    (LinearSearch.searchList ll target).1 =
      ⟨false, none,
       (ll.data.enum.map fun p =>
         ⟨p.1 + 1, "compare", some p.1, some p.2,
          some (if p.2 < target then "less" else "greater"), false⟩) ++
       [⟨ll.data.length + 1, "not_found", none, none, none, false⟩],
       ll.data.length⟩ := by
  constructor
  · simp only [LinearSearch.searchArray]
    rw [lsArrayLoop_absent target arr.data 0 [] 0 [] rfl
      (fun v hv hveq => ha (hveq ▸ hv))]
    simp [List.enum]
  · simp only [LinearSearch.searchList]
    rw [lsListLoop_absent target ll.data 0 [] 0 [] rfl
      (fun v hv hveq => hl (hveq ▸ hv))]
    simp [List.enum]

/-- Witness for C2: target `8` is absent from `[1,3,5]` (array) and from
`[2,4]` (linked list). -/
theorem claim_C2_witness :
    ((8 : Int) ∉ (⟨[1, 3, 5], []⟩ : SearchableArray).data ∧
     (8 : Int) ∉ (⟨[2, 4], []⟩ : SearchableLinkedList).data) ∧
    (LinearSearch.searchArray ⟨[1, 3, 5], []⟩ 8).1 =
      ⟨false, none,
       (([1, 3, 5] : List Int).enum.map fun p =>
         ⟨p.1 + 1, "compare", some p.1, some p.2,
          some (if p.2 < 8 then "less" else "greater"), false⟩) ++
       [⟨([1, 3, 5] : List Int).length + 1, "not_found", none, none, none, false⟩],
       ([1, 3, 5] : List Int).length⟩ ∧
    (LinearSearch.searchList ⟨[2, 4], []⟩ 8).1 =
      ⟨false, none,
       (([2, 4] : List Int).enum.map fun p =>
         ⟨p.1 + 1, "compare", some p.1, some p.2,
          some (if p.2 < 8 then "less" else "greater"), false⟩) ++
       [⟨([2, 4] : List Int).length + 1, "not_found", none, none, none, false⟩],
       ([2, 4] : List Int).length⟩ := by
  refine ⟨⟨by decide, by decide⟩, ?_⟩
  exact claim_C2_linear_absent ⟨[1, 3, 5], []⟩ ⟨[2, 4], []⟩ 8 (by decide) (by decide)

/-! ## Frame lemmas for the linear loops -/

/-- Whatever the starting accumulators, the array loop only appends: the
final steps extend the given ones by some tail, and the final history extends
the given one by exactly the indices of the compare steps of that tail. -/
theorem lsArrayLoop_frame (target : Int) (l : List Int) :
    ∀ (i : Nat) (steps : List SearchStep) (comps : Nat) (hist : List Nat),
      ∃ tail,
        (lsArrayLoop target l i steps comps hist).1.steps = steps ++ tail ∧
        (lsArrayLoop target l i steps comps hist).2 =
          hist ++ tail.filterMap compareIndex := by
  induction l with
  | nil =>
    intro i steps comps hist
    refine ⟨[⟨steps.length + 1, "not_found", none, none, none, false⟩], rfl, ?_⟩
    simp [lsArrayLoop, compareIndex]
  | cons v rest ih =>
    intro i steps comps hist
    rw [lsArrayLoop]
    cases h : (compareOutcome v target).2 with
    | true =>
      refine ⟨[⟨steps.length + 1, "compare", some i, some v,
        some (compareOutcome v target).1, (compareOutcome v target).2⟩],
        by simp [h], ?_⟩
      simp [h, compareIndex]
    | false =>
      obtain ⟨tail, h1, h2⟩ := ih (i + 1)
        (steps ++ [⟨steps.length + 1, "compare", some i, some v,
          some (compareOutcome v target).1, (compareOutcome v target).2⟩])
        (comps + 1) (hist ++ [i])
      rw [h] at h1 h2
      refine ⟨⟨steps.length + 1, "compare", some i, some v,
        some (compareOutcome v target).1, false⟩ :: tail, ?_, ?_⟩
      · simp only [h, Bool.false_eq_true, if_false, h1, List.append_assoc,
          List.singleton_append]
      · simp only [h, Bool.false_eq_true, if_false, h2]
        simp [compareIndex]

/-- The linked-list analogue of `lsArrayLoop_frame`: the history grows by the
values of the compare steps. -/
theorem lsListLoop_frame (target : Int) (l : List Int) :
    ∀ (i : Nat) (steps : List SearchStep) (comps : Nat) (hist : List Int),
      ∃ tail,
        (lsListLoop target l i steps comps hist).1.steps = steps ++ tail ∧
        (lsListLoop target l i steps comps hist).2 =
          hist ++ tail.filterMap compareValue := by
  induction l with
  | nil =>
    intro i steps comps hist
    refine ⟨[⟨steps.length + 1, "not_found", none, none, none, false⟩], rfl, ?_⟩
    simp [lsListLoop, compareValue]
  | cons v rest ih =>
    intro i steps comps hist
    rw [lsListLoop]
    cases h : (compareOutcome v target).2 with
    | true =>
      refine ⟨[⟨steps.length + 1, "compare", some i, some v,
        some (compareOutcome v target).1, (compareOutcome v target).2⟩],
        by simp [h], ?_⟩
      simp [h, compareValue]
    | false =>
      obtain ⟨tail, h1, h2⟩ := ih (i + 1)
        (steps ++ [⟨steps.length + 1, "compare", some i, some v,
          some (compareOutcome v target).1, (compareOutcome v target).2⟩])
        (comps + 1) (hist ++ [v])
      rw [h] at h1 h2
      refine ⟨⟨steps.length + 1, "compare", some i, some v,
        some (compareOutcome v target).1, false⟩ :: tail, ?_, ?_⟩
      · simp only [h, Bool.false_eq_true, if_false, h1, List.append_assoc,
          List.singleton_append]
      · simp only [h, Bool.false_eq_true, if_false, h2]
        simp [compareValue]

/-! ## BST search structure -/

/-- Structure of the history recorded by `_search_recursive`: on success the
history is a path of non-matching values capped by the target itself; on
failure no recorded value matches the target. -/
theorem searchRec_structure (target : Int) (t : Tree) :
    ((t.searchRec target).1 = true →
      ∃ h0, (t.searchRec target).2 = h0 ++ [target] ∧ ∀ v ∈ h0, v ≠ target) ∧
    ((t.searchRec target).1 = false →
      ∀ v ∈ (t.searchRec target).2, v ≠ target) := by
  induction t with
  | nil => simp [Tree.searchRec]
  | node l x r ihl ihr =>
    rw [Tree.searchRec]
    by_cases hxe : target = x
    · simp only [if_pos hxe]
      refine ⟨fun _ => ⟨[], by simp [hxe], by simp⟩, fun h => by simp at h⟩
    · by_cases hlt : target < x
      · simp only [if_neg hxe, if_pos hlt]
        constructor
        · intro hf
          obtain ⟨h0, he, hne⟩ := ihl.1 hf
          refine ⟨x :: h0, by simp [he], ?_⟩
          intro v hv
          rcases List.mem_cons.1 hv with hvx | hvh
          · exact hvx ▸ fun hc => hxe hc.symm
          · exact hne v hvh
        · intro hf v hv
          rcases List.mem_cons.1 hv with hvx | hvh
          · exact hvx ▸ fun hc => hxe hc.symm
          · exact ihl.2 hf v hvh
      · simp only [if_neg hxe, if_neg hlt]
        constructor
        · intro hf
          obtain ⟨h0, he, hne⟩ := ihr.1 hf
          refine ⟨x :: h0, by simp [he], ?_⟩
          intro v hv
          rcases List.mem_cons.1 hv with hvx | hvh
          · exact hvx ▸ fun hc => hxe hc.symm
          · exact hne v hvh
        · intro hf v hv
          rcases List.mem_cons.1 hv with hvx | hvh
          · exact hvx ▸ fun hc => hxe hc.symm
          · exact ihr.2 hf v hvh

/-- As long as only the last element of the history can match the target, the
step-rebuilding loop of `BSTSearch.search` never truncates: it emits one
compare step per history entry, with the claimed verdicts. -/
theorem bstSteps_eq_map (target : Int) (l : List Int) :
    ∀ (i : Nat), (∀ v ∈ l.dropLast, v ≠ target) →
      bstSteps target l i =
        (l.enumFrom i).map fun p =>
          ⟨p.1 + 1, "compare", none, some p.2,
           some (if p.2 = target then "equal"
                 else if p.2 > target then "greater" else "less"),
           decide (p.2 = target)⟩ := by
  induction l with
  | nil => intro i _; simp [bstSteps]
  | cons v rest ih =>
    intro i hd
    rw [bstSteps]
    by_cases hv : v = target
    · have hrest : rest = [] := by
        cases rest with
        | nil => rfl
        | cons a as =>
          exact absurd hv (hd v (by simp [List.dropLast]))
      subst hrest
      simp [bstOutcome, hv, List.enumFrom]
    · have hoc2 : (bstOutcome v target).2 = false := by
        simp only [bstOutcome, if_neg hv]
        split <;> rfl
      have hoc1 : (bstOutcome v target).1 =
          if v > target then "greater" else "less" := by
        simp only [bstOutcome, if_neg hv]
        split <;> rfl
      rw [ih (i + 1) ?_]
      · simp [hoc2, hoc1, hv, List.enumFrom]
      · intro w hw
        apply hd
        cases rest with
        | nil => simp at hw
        | cons a as => simp [List.dropLast, hw]

/-- Only the last recorded value of a BST search history can equal the
target. -/
theorem searchRec_dropLast (b : BinarySearchTree) (target : Int) :
    ∀ v ∈ (b.root.searchRec target).2.dropLast, v ≠ target := by
  cases hf : (b.root.searchRec target).1 with
  | true =>
    obtain ⟨h0, he, hne⟩ := (searchRec_structure target b.root).1 hf
    rw [he, List.dropLast_concat]
    exact hne
  | false =>
    intro v hv
    exact (searchRec_structure target b.root).2 hf v
      (List.dropLast_sublist _ |>.subset hv)

/-- The step list rebuilt by `BSTSearch.search`: one compare step per history
entry (with the C4 verdicts), plus a terminal `not_found` step exactly when
the search failed. -/
theorem searchBST_steps_eq (b : BinarySearchTree) (target : Int) :
    (BSTSearch.searchBST b target).1.steps =
      ((b.root.searchRec target).2.enum.map fun p =>
        ⟨p.1 + 1, "compare", none, some p.2,
         some (if p.2 = target then "equal"
               else if p.2 > target then "greater" else "less"),
         decide (p.2 = target)⟩) ++
      (if (b.root.searchRec target).1 then []
       else [⟨(b.root.searchRec target).2.length + 1, "not_found", none, none,
              none, false⟩]) := by
  have hsteps := bstSteps_eq_map target (b.root.searchRec target).2 0
    (searchRec_dropLast b target)
  have hswh : (b.searchWithHistory target).1.2 = (b.root.searchRec target).2 :=
    rfl
  have hswh1 :
      (b.searchWithHistory target).1.1 = (b.root.searchRec target).1 := rfl
  simp only [BSTSearch.searchBST]
  rw [hswh, hswh1, hsteps]
  cases hf : (b.root.searchRec target).1 with
  | true => simp [List.enum]
  | false =>
    simp only [hf, if_false, Bool.false_eq_true]
    simp [List.enum]

/-- The compare values of a BST search trace are exactly the visited
history. -/
theorem searchBST_history_filter (b : BinarySearchTree) (target : Int) :
    (BSTSearch.searchBST b target).1.steps.filterMap compareValue =
      (b.root.searchRec target).2 := by
  rw [searchBST_steps_eq, List.filterMap_append]
  have h1 : ((b.root.searchRec target).2.enum.map fun p =>
      (⟨p.1 + 1, "compare", none, some p.2,
        some (if p.2 = target then "equal"
              else if p.2 > target then "greater" else "less"),
        decide (p.2 = target)⟩ : SearchStep)).filterMap compareValue =
      (b.root.searchRec target).2 := by
    rw [List.filterMap_map]
    have hfun : (compareValue ∘ fun p : Nat × Int =>
        (⟨p.1 + 1, "compare", none, some p.2,
          some (if p.2 = target then "equal"
                else if p.2 > target then "greater" else "less"),
          decide (p.2 = target)⟩ : SearchStep)) =
        some ∘ (Prod.snd : Nat × Int → Int) := by
      funext p
      simp [compareValue]
    rw [hfun, List.filterMap_eq_map, List.enum, List.enumFrom_map_snd]
  rw [h1]
  cases hf : (b.root.searchRec target).1 with
  | true => simp
  | false =>
    simp only [if_false, Bool.false_eq_true]
    simp [compareValue]

/-! ## Claim C4 -/

/-- Claim C4: `BSTSearch.search` reports `comparisons` equal to the length of
the visited path recorded by the descend rule, its steps replay that path one
compare step per visited value with verdict `equal` on a match, `greater`
when the node value exceeds the target, `less` otherwise (plus a terminal
`not_found` step when the search failed), and on an empty tree the search
finds nothing, performs zero comparisons and visits an empty path. -/
theorem claim_C4_bst_trace (b : BinarySearchTree) (target : Int) :
    (BSTSearch.searchBST b target).1.comparisons =
        (b.root.searchRec target).2.length ∧
    (BSTSearch.searchBST b target).1.found = (b.root.searchRec target).1 ∧
    (BSTSearch.searchBST b target).1.steps =
      ((b.root.searchRec target).2.enum.map fun p =>
        ⟨p.1 + 1, "compare", none, some p.2,
         some (if p.2 = target then "equal"
               else if p.2 > target then "greater" else "less"),
         decide (p.2 = target)⟩) ++
      (if (b.root.searchRec target).1 then []
       else [⟨(b.root.searchRec target).2.length + 1, "not_found", none, none,
              none, false⟩]) ∧
    (b.root = .nil →
      (BSTSearch.searchBST b target).1.found = false ∧
      (BSTSearch.searchBST b target).1.comparisons = 0 ∧
      (b.root.searchRec target).2 = []) := by
  refine ⟨rfl, rfl, searchBST_steps_eq b target, ?_⟩
  intro hnil
  rcases b with ⟨root, sz, ah⟩
  have hr : root = .nil := hnil
  subst hr
  exact ⟨rfl, rfl, rfl⟩

/-- Witness for C4 at the spec's concrete tree built from `[5,3,7,1,9,4,6]`,
searching for `4`. -/
theorem claim_C4_witness :
    (BSTSearch.searchBST (BinarySearchTree.fromList [5, 3, 7, 1, 9, 4, 6])
        4).1.comparisons =
      ((BinarySearchTree.fromList [5, 3, 7, 1, 9, 4, 6]).root.searchRec
        4).2.length ∧
    (BSTSearch.searchBST (BinarySearchTree.fromList [5, 3, 7, 1, 9, 4, 6])
        4).1.found =
      ((BinarySearchTree.fromList [5, 3, 7, 1, 9, 4, 6]).root.searchRec 4).1 ∧
    (BSTSearch.searchBST (BinarySearchTree.fromList [5, 3, 7, 1, 9, 4, 6])
        4).1.steps =
      (((BinarySearchTree.fromList [5, 3, 7, 1, 9, 4, 6]).root.searchRec
          4).2.enum.map fun p =>
        ⟨p.1 + 1, "compare", none, some p.2,
         some (if p.2 = 4 then "equal"
               else if p.2 > 4 then "greater" else "less"),
         decide (p.2 = 4)⟩) ++
      (if ((BinarySearchTree.fromList [5, 3, 7, 1, 9, 4, 6]).root.searchRec
            4).1 then []
       else [⟨((BinarySearchTree.fromList [5, 3, 7, 1, 9, 4, 6]).root.searchRec
              4).2.length + 1, "not_found", none, none, none, false⟩]) ∧
    ((BinarySearchTree.fromList [5, 3, 7, 1, 9, 4, 6]).root = .nil →
      (BSTSearch.searchBST (BinarySearchTree.fromList [5, 3, 7, 1, 9, 4, 6])
          4).1.found = false ∧
      (BSTSearch.searchBST (BinarySearchTree.fromList [5, 3, 7, 1, 9, 4, 6])
          4).1.comparisons = 0 ∧
      ((BinarySearchTree.fromList [5, 3, 7, 1, 9, 4, 6]).root.searchRec
        4).2 = []) :=
  claim_C4_bst_trace (BinarySearchTree.fromList [5, 3, 7, 1, 9, 4, 6]) 4

/-! ## Claim C7 -/

/-- Recursive insertion preserves a value bound satisfied by the new value. -/
theorem forallV_insertAux (p : Int → Prop) (t : Tree) (v : Int) (hp : p v)
    (ht : Tree.ForallV p t) : Tree.ForallV p (t.insertAux v).1 := by
  induction t with
  | nil => exact ⟨hp, trivial, trivial⟩
  | node l x r ihl ihr =>
    obtain ⟨hx, hl, hr⟩ := ht
    simp only [Tree.insertAux]
    by_cases h1 : v < x
    · simp only [if_pos h1]
      exact ⟨hx, ihl hl, hr⟩
    · by_cases h2 : v > x
      · simp only [if_neg h1, if_pos h2]
        exact ⟨hx, hl, ihr hr⟩
      · simp only [if_neg h1, if_neg h2]
        exact ⟨hx, hl, hr⟩

/-- Recursive insertion preserves the BST invariant. -/
theorem isBST_insertAux (t : Tree) (v : Int) (ht : t.IsBST) :
    (t.insertAux v).1.IsBST := by
  induction t with
  | nil => exact ⟨trivial, trivial, trivial, trivial⟩
  | node l x r ihl ihr =>
    obtain ⟨hfl, hfr, hbl, hbr⟩ := ht
    simp only [Tree.insertAux]
    by_cases h1 : v < x
    · simp only [if_pos h1]
      exact ⟨forallV_insertAux _ _ _ h1 hfl, hfr, ihl hbl, hbr⟩
    · by_cases h2 : v > x
      · simp only [if_neg h1, if_pos h2]
        exact ⟨hfl, forallV_insertAux _ _ _ h2 hfr, hbl, ihr hbr⟩
      · simp only [if_neg h1, if_neg h2]
        exact ⟨hfl, hfr, hbl, hbr⟩

/-- Container-level insertion preserves the BST invariant. -/
theorem isBST_insert (b : BinarySearchTree) (v : Int) (hb : b.root.IsBST) :
    (b.insert v).root.IsBST := by
  rcases b with ⟨root, sz, ah⟩
  cases root with
  | nil => exact ⟨trivial, trivial, trivial, trivial⟩
  | node l x r => exact isBST_insertAux _ v hb

/-- Building a tree by repeated insertion from any starting BST yields a
BST. -/
theorem isBST_foldl (vs : List Int) :
    ∀ (b : BinarySearchTree), b.root.IsBST →
      (vs.foldl BinarySearchTree.insert b).root.IsBST := by
  induction vs with
  | nil => intro b hb; exact hb
  | cons v rest ih => intro b hb; exact ih _ (isBST_insert b v hb)

/-- A tree-wide value bound says exactly that every in-order value satisfies
it. -/
theorem forallV_iff (p : Int → Prop) (t : Tree) :
    Tree.ForallV p t ↔ ∀ v ∈ t.inorder, p v := by
  induction t with
  | nil => simp [Tree.ForallV, Tree.inorder]
  | node l x r ihl ihr =>
    simp only [Tree.ForallV, Tree.inorder, ihl, ihr, List.mem_append,
      List.mem_cons]
    constructor
    · rintro ⟨hx, hl, hr⟩ v (hv | rfl | hv)
      · exact hl v hv
      · exact hx
      · exact hr v hv
    · intro h
      exact ⟨h x (by tauto), fun v hv => h v (by tauto),
        fun v hv => h v (by tauto)⟩

/-- The in-order traversal of a BST is strictly increasing. -/
theorem sorted_inorder (t : Tree) (ht : t.IsBST) :
    List.Sorted (· < ·) t.inorder := by
  induction t with
  | nil => simp [Tree.inorder, List.Sorted]
  | node l x r ihl ihr =>
    obtain ⟨hfl, hfr, hbl, hbr⟩ := ht
    rw [Tree.inorder]
    refine List.pairwise_append.2 ⟨ihl hbl, ?_, ?_⟩
    · exact List.pairwise_cons.2
        ⟨fun b hb => (forallV_iff _ r).1 hfr b hb, ihr hbr⟩
    · intro a ha b hb
      have hax : a < x := (forallV_iff _ l).1 hfl a ha
      rcases List.mem_cons.1 hb with rfl | hbr2
      · exact hax
      · exact hax.trans ((forallV_iff _ r).1 hfr b hbr2)

/-- Claim C7: a tree built by repeatedly inserting the values of an arbitrary
list satisfies the strict BST invariant at every node, and its in-order
traversal is strictly ascending — in particular duplicate-free, reflecting
that insertion discards duplicate keys. -/
theorem claim_C7_bst_invariant (vs : List Int) :
    (BinarySearchTree.fromList vs).root.IsBST ∧
    List.Sorted (· < ·) (BinarySearchTree.fromList vs).root.inorder ∧
    (BinarySearchTree.fromList vs).root.inorder.Nodup := by
  have hb : (BinarySearchTree.fromList vs).root.IsBST :=
    isBST_foldl vs ⟨.nil, 0, []⟩ trivial
  have hs := sorted_inorder _ hb
  exact ⟨hb, hs, hs.nodup⟩

/-! ## Claim C5 -/

/-- Claim C5: every engine is deterministic in the container contents and the
target: two containers with identical contents (whatever their previous
access histories) produce identical results, step by step and field by field,
with identical comparison counts. -/
theorem claim_C5_determinism :
    (∀ (a1 a2 : SearchableArray) (t : Int), a1.data = a2.data →
      LinearSearch.searchArray a1 t = LinearSearch.searchArray a2 t ∧
      BinarySearch.searchArray a1 t = BinarySearch.searchArray a2 t) ∧
    (∀ (l1 l2 : SearchableLinkedList) (t : Int), l1.data = l2.data →
      LinearSearch.searchList l1 t = LinearSearch.searchList l2 t) ∧
    (∀ (b1 b2 : BinarySearchTree) (t : Int), b1.root = b2.root →
      (BSTSearch.searchBST b1 t).1 = (BSTSearch.searchBST b2 t).1 ∧
      (BSTSearch.searchBST b1 t).2.access_history =
        (BSTSearch.searchBST b2 t).2.access_history) := by
  refine ⟨fun a1 a2 t h => ?_, fun l1 l2 t h => ?_, fun b1 b2 t h => ?_⟩
  · constructor
    · simp only [LinearSearch.searchArray, h]
    · simp only [BinarySearch.searchArray, h]
  · simp only [LinearSearch.searchList, h]
  · constructor
    · simp only [BSTSearch.searchBST, BinarySearchTree.searchWithHistory, h]
    · simp only [BSTSearch.searchBST, BinarySearchTree.searchWithHistory, h]

/-- Witness for C5 at concrete inputs: same contents, different starting
histories (and, for the trees, different size counters). -/
theorem claim_C5_witness :
    ((⟨[4, 2, 9], [0, 1]⟩ : SearchableArray).data =
      (⟨[4, 2, 9], [2]⟩ : SearchableArray).data ∧
     (⟨[4, 2, 9], [4]⟩ : SearchableLinkedList).data =
      (⟨[4, 2, 9], []⟩ : SearchableLinkedList).data ∧
     (⟨.node .nil 3 .nil, 1, [7]⟩ : BinarySearchTree).root =
      (⟨.node .nil 3 .nil, 1, []⟩ : BinarySearchTree).root) ∧
    (LinearSearch.searchArray ⟨[4, 2, 9], [0, 1]⟩ 9 =
      LinearSearch.searchArray ⟨[4, 2, 9], [2]⟩ 9 ∧
     BinarySearch.searchArray ⟨[4, 2, 9], [0, 1]⟩ 9 =
      BinarySearch.searchArray ⟨[4, 2, 9], [2]⟩ 9) ∧
    LinearSearch.searchList ⟨[4, 2, 9], [4]⟩ 2 =
      LinearSearch.searchList ⟨[4, 2, 9], []⟩ 2 ∧
    (BSTSearch.searchBST ⟨.node .nil 3 .nil, 1, [7]⟩ 3).1 =
      (BSTSearch.searchBST ⟨.node .nil 3 .nil, 1, []⟩ 3).1 ∧
    (BSTSearch.searchBST ⟨.node .nil 3 .nil, 1, [7]⟩ 3).2.access_history =
      (BSTSearch.searchBST ⟨.node .nil 3 .nil, 1, []⟩ 3).2.access_history := by
  refine ⟨⟨rfl, rfl, rfl⟩, claim_C5_determinism.1 _ _ 9 rfl, ?_, ?_⟩
  · exact claim_C5_determinism.2.1 _ _ 2 rfl
  · exact claim_C5_determinism.2.2 _ _ 3 rfl

/-! ## Claim C8 -/

/-- Claim C8 as stated is false for the linked list: an out-of-range
`get_value_at` does not fail with an error — it returns Python `None` (a
substituted sentinel value) as a normal result and leaves the list
unchanged. -/
theorem claim_C8_counterexample :
    SearchableLinkedList.getValueAt ⟨[1, 2, 3], []⟩ 5 =
      (none, ⟨[1, 2, 3], []⟩) := by
  decide

/-- Claim C8, amended: array positional reads and writes outside `[0, size)`
raise `IndexError` (never clamping or substituting), while the linked list's
`get_node_at`/`get_value_at` outside `[0, size)` raise nothing: they return
`None` and leave the list (history included) unchanged. -/
theorem claim_C8_out_of_range :
    (∀ (arr : SearchableArray) (index : Int),
      index < 0 ∨ (arr.data.length : Int) ≤ index →
      arr.getItem index = .error ("数组索引超出范围") ∧
      ∀ v, arr.setItem index v = .error ("数组索引超出范围")) ∧
    (∀ (ll : SearchableLinkedList) (index : Int),
      index < 0 ∨ (ll.data.length : Int) ≤ index →
      ll.getNodeAt index = (none, ll) ∧ ll.getValueAt index = (none, ll)) := by
  constructor
  · intro arr index h
    constructor
    · simp only [SearchableArray.getItem]
      rw [dif_neg (by omega)]
    · intro v
      simp only [SearchableArray.setItem]
      rw [if_neg (by omega)]
  · intro ll index h
    have hg : ll.getNodeAt index = (none, ll) := by
      simp only [SearchableLinkedList.getNodeAt]
      rw [dif_neg (by omega)]
    exact ⟨hg, hg⟩

/-- Witness for C8 at concrete out-of-range inputs. -/
theorem claim_C8_witness :
    ((5 : Int) < 0 ∨ ((⟨[1, 2], []⟩ : SearchableArray).data.length : Int) ≤ 5) ∧
    ((-1 : Int) < 0 ∨
      ((⟨[1, 2], []⟩ : SearchableLinkedList).data.length : Int) ≤ -1) ∧
    (SearchableArray.getItem ⟨[1, 2], []⟩ 5 = .error ("数组索引超出范围") ∧
      ∀ v, SearchableArray.setItem ⟨[1, 2], []⟩ 5 v =
        .error ("数组索引超出范围")) ∧
    (SearchableLinkedList.getNodeAt ⟨[1, 2], []⟩ (-1) = (none, ⟨[1, 2], []⟩) ∧
      SearchableLinkedList.getValueAt ⟨[1, 2], []⟩ (-1) =
        (none, ⟨[1, 2], []⟩)) := by
  refine ⟨by decide, by decide, ?_, ?_⟩
  · exact claim_C8_out_of_range.1 ⟨[1, 2], []⟩ 5 (by decide)
  · exact claim_C8_out_of_range.2 ⟨[1, 2], []⟩ (-1) (by decide)

/-! ## Claim C9 -/

/-- Claim C9: an unknown algorithm identifier makes the dispatcher fail fast
with an unsupported-algorithm error, and a valid identifier paired with an
incompatible container makes the engine raise a compatibility error; in every
such case the call yields only an error — no step sequence, no result, no
modified container. -/
theorem claim_C9_dispatch_errors :
    (∀ (name : String), name ≠ "linear" → name ≠ "binary" → name ≠ "bst" →
      ∀ (c : Container) (t : Int),
        SearchAlgorithmFactory.search name c t =
          .error ("不支持的算法: " ++ name)) ∧
    (∀ (ll : SearchableLinkedList) (t : Int),
      BinarySearch.search (.linked ll) t = .error ("二分查找只支持数组类型")) ∧
    (∀ (b : BinarySearchTree) (t : Int),
      BinarySearch.search (.bst b) t = .error ("二分查找只支持数组类型")) ∧
    (∀ (b : BinarySearchTree) (t : Int),
      LinearSearch.search (.bst b) t =
        .error ("线性查找不支持此数据结构类型")) ∧
    (∀ (arr : SearchableArray) (t : Int),
      BSTSearch.search (.array arr) t =
        .error ("BST查找只支持二叉搜索树类型")) ∧
    (∀ (ll : SearchableLinkedList) (t : Int),
      BSTSearch.search (.linked ll) t =
        .error ("BST查找只支持二叉搜索树类型")) := by
  refine ⟨fun name h1 h2 h3 c t => ?_, fun _ _ => rfl, fun _ _ => rfl,
    fun _ _ => rfl, fun _ _ => rfl, fun _ _ => rfl⟩
  simp only [SearchAlgorithmFactory.search, if_neg h1, if_neg h2, if_neg h3]

/-- Witness for C9: the unknown identifier "quantum" at a concrete container.
-/
theorem claim_C9_witness :
    ("quantum" ≠ "linear" ∧ "quantum" ≠ "binary" ∧ "quantum" ≠ "bst") ∧
    SearchAlgorithmFactory.search "quantum" (.array ⟨[1], []⟩) 1 =
      .error ("不支持的算法: " ++ "quantum") := by
  refine ⟨⟨by decide, by decide, by decide⟩, ?_⟩
  exact claim_C9_dispatch_errors.1 "quantum" (by decide) (by decide) (by decide)
    (.array ⟨[1], []⟩) 1

/-! ## Claim C10 -/

/-- Claim C10: every search clears the container's access history before
traversing — so the result is insensitive to whatever history was already
logged — and on return the log holds exactly the accesses of that single
search (the indices of its compare steps for arrays, the values for linked
lists and trees), while the stored data itself is untouched. -/
theorem claim_C10_history_frame :
    (∀ (data : List Int) (h : List Nat) (t : Int),
      LinearSearch.searchArray ⟨data, h⟩ t =
        LinearSearch.searchArray ⟨data, []⟩ t ∧
      (LinearSearch.searchArray ⟨data, h⟩ t).2.data = data ∧
      (LinearSearch.searchArray ⟨data, h⟩ t).2.access_history =
        (LinearSearch.searchArray ⟨data, h⟩ t).1.steps.filterMap
          compareIndex) ∧
    (∀ (data : List Int) (h : List Int) (t : Int),
      LinearSearch.searchList ⟨data, h⟩ t =
        LinearSearch.searchList ⟨data, []⟩ t ∧
      (LinearSearch.searchList ⟨data, h⟩ t).2.data = data ∧
      (LinearSearch.searchList ⟨data, h⟩ t).2.access_history =
        (LinearSearch.searchList ⟨data, h⟩ t).1.steps.filterMap
          compareValue) ∧
    (∀ (data : List Int) (h : List Nat) (t : Int),
      BinarySearch.searchArray ⟨data, h⟩ t =
        BinarySearch.searchArray ⟨data, []⟩ t ∧
      ∃ res arr2, BinarySearch.searchArray ⟨data, h⟩ t = .ok (res, arr2) ∧
        arr2.data = data ∧
        arr2.access_history = res.steps.filterMap compareIndex) ∧
    (∀ (root : Tree) (sz : Nat) (h : List Int) (t : Int),
      (BSTSearch.searchBST ⟨root, sz, h⟩ t).1 =
        (BSTSearch.searchBST ⟨root, sz, []⟩ t).1 ∧
      (BSTSearch.searchBST ⟨root, sz, h⟩ t).2.root = root ∧
      (BSTSearch.searchBST ⟨root, sz, h⟩ t).2.access_history =
        (BSTSearch.searchBST ⟨root, sz, h⟩ t).1.steps.filterMap
          compareValue) := by
  refine ⟨fun data h t => ⟨rfl, rfl, ?_⟩, fun data h t => ⟨rfl, rfl, ?_⟩,
    fun data h t => ⟨rfl, ?_⟩, fun root sz h t => ⟨rfl, rfl, ?_⟩⟩
  · obtain ⟨tail, h1, h2⟩ := lsArrayLoop_frame t data 0 [] 0 []
    have hst : (LinearSearch.searchArray ⟨data, h⟩ t).1.steps = tail := by
      show (lsArrayLoop t data 0 [] 0 []).1.steps = tail
      rw [h1]
      simp
    rw [hst]
    show (lsArrayLoop t data 0 [] 0 []).2 = _
    rw [h2]
    simp
  · obtain ⟨tail, h1, h2⟩ := lsListLoop_frame t data 0 [] 0 []
    have hst : (LinearSearch.searchList ⟨data, h⟩ t).1.steps = tail := by
      show (lsListLoop t data 0 [] 0 []).1.steps = tail
      rw [h1]
      simp
    rw [hst]
    show (lsListLoop t data 0 [] 0 []).2 = _
    rw [h2]
    simp
  · obtain ⟨res, arr2, tail, heq, hdata, hsteps, hhist, -, -⟩ :=
      bsLoop_ok t data.length 0 ((data.length : Int) - 1) ⟨data, []⟩ [] 0
        (by omega) (by omega)
        (show (data.length : Int) - 1 < (data.length : Int) by omega)
    refine ⟨res, arr2, heq, hdata, ?_⟩
    rw [hhist, hsteps]
    simp
  · exact (searchBST_history_filter ⟨root, sz, h⟩ t).symm

end AlgoSearch
